import Mathlib

/-!
Verification of the audio-extraction pipeline of `src/services/audioConverter.ts`
(`extractAudioFromVideo`): float-to-int16 quantization, 1152-sample block
framing for the MP3 encoder, progress reporting, flush semantics, chunk
collection and output-file naming.

The embedding models the decoded floating-point samples as rationals, the
external lamejs encoder as an abstract stateful machine with `encodeBuffer`
and `flush` operations, and records every externally observable action of
the pipeline (file read, decode, render, encoder calls, progress callbacks)
in an explicit trace.
-/

namespace AudioConverter

/-- A chunk of encoded bytes returned by the encoder. -/
abbrev Chunk := List Nat

/-- The external lamejs `Mp3Encoder` object, abstracted as a stateful machine
with state type `σ`: `encodeBuffer` consumes one block of int16 samples and
returns the new state together with an output chunk; `flush` releases the
internally buffered trailing output. -/
structure Mp3Encoder (σ : Type) where
  encodeBuffer : σ → List Int → σ × Chunk
  flush : σ → σ × Chunk

/-- Externally observable actions of one pipeline invocation, in order. -/
inductive Effect where
  | readFile : Effect
  | decodeAudio : Effect
  | render : Effect
  | encodeBlock (window : List Int) (ret : Chunk) : Effect
  | flush (ret : Chunk) : Effect
  | progress (value : ℚ) : Effect
deriving DecidableEq

/-- The named, typed binary file the pipeline returns. -/
structure OutputFile where
  name : List Char
  type : List Char
  content : List Nat
deriving DecidableEq

/-- `Math.max(-1, Math.min(1, s))` from the quantization loop. -/
def clampSample (s : ℚ) : ℚ := max (-1) (min 1 s)

/-- Truncation toward zero, the rounding JavaScript applies when a number is
stored into an `Int16Array` (ToIntegerOrInfinity). -/
def truncToZero (x : ℚ) : ℤ := if x < 0 then ⌈x⌉ else ⌊x⌋

/-- Reduction of an integer into the signed 16-bit range, the wrap-around an
`Int16Array` store performs after truncation. -/
def toInt16 (z : ℤ) : ℤ := (z + 32768) % 65536 - 32768

/-- One iteration of the conversion loop
`int16Samples[i] = s < 0 ? s * 0x8000 : s * 0x7FFF` applied to the clamped
sample, including the `Int16Array` store semantics. -/
def quantizeSample (s : ℚ) : ℤ :=
  let c := clampSample s
  toInt16 (if c < 0 then truncToZero (c * 32768) else truncToZero (c * 32767))

/-- The full `Float32 → Int16` conversion loop over the sample buffer. -/
def quantize (samples : List ℚ) : List ℤ := samples.map quantizeSample

/-- `const sampleBlockSize = 1152` — the encoder block size. -/
def sampleBlockSize : Nat := 1152

/-- The `while (remaining >= sampleBlockSize)` loop of
`extractAudioFromVideo`: take the window
`int16Samples.subarray(offset, offset + sampleBlockSize)`, feed it to
`mp3encoder.encodeBuffer`, push the returned chunk onto `mp3Data` when it is
non-empty, advance `offset`/`remaining`, and fire the progress callback when
the advanced offset is an exact multiple of `sampleBlockSize * 100`.
Returns the final encoder state, the collected `mp3Data`, and the trace. -/
def encodeLoop {σ : Type} (E : Mp3Encoder σ) (int16Samples : List Int)
    (hasProgress : Bool) (st : σ) (offset remaining : Nat)
    (mp3Data : List Chunk) (trace : List Effect) : σ × List Chunk × List Effect :=
  if h : sampleBlockSize ≤ remaining then
    let chunk := (int16Samples.drop offset).take sampleBlockSize
    let res := E.encodeBuffer st chunk
    let mp3Data2 := if res.2.length > 0 then mp3Data ++ [res.2] else mp3Data
    let offset2 := offset + sampleBlockSize
    let trace2 := trace ++ [Effect.encodeBlock chunk res.2]
    let trace3 :=
      if hasProgress && (offset2 % (sampleBlockSize * 100) == 0) then
        trace2 ++ [Effect.progress ((offset2 : ℚ) / (int16Samples.length : ℚ))]
      else trace2
    encodeLoop E int16Samples hasProgress res.1 offset2
      (remaining - sampleBlockSize) mp3Data2 trace3
  else (st, mp3Data, trace)
termination_by remaining
decreasing_by simp only [sampleBlockSize] at h ⊢; omega

/-- Predicate for the characters a final extension may consist of: the
regular expression `\.[^/.]+$` strips a trailing `.` followed by one or more
characters that are neither `.` nor `/`. -/
def isExtChar (c : Char) : Bool := !(c = '.' || c = '/')

/-- `videoFile.name.replace(/\.[^/.]+$/, "")`: remove the final extension
when the name ends in a `.` followed by one or more non-`.`/non-`/`
characters; otherwise leave the name unchanged. -/
def replaceExtension (name : List Char) : List Char :=
  match name.reverse.dropWhile isExtChar with
  | '.' :: pre =>
    if name.reverse.takeWhile isExtChar = [] then name else pre.reverse
  | _ => name

/-- The error message thrown when `window.lamejs` is undefined. -/
def encoderMissingMsg : List Char := "Audio encoder library (lamejs) not loaded.".toList

/-- `extractAudioFromVideo(videoFile, onProgress)`. `lamejsLoaded` models
whether `window.lamejs` is defined; `samples` are the mono 16 kHz float
samples the external decode/render steps produce from the file; `E`/`st0`
model the freshly constructed `lamejs.Mp3Encoder(1, 16000, 64)`;
`hasProgress` models whether an `onProgress` callback was supplied.
Returns the trace of observable actions and either the thrown error message
or the produced file. -/
def extractAudioFromVideo {σ : Type} (E : Mp3Encoder σ) (lamejsLoaded : Bool)
    (name : List Char) (samples : List ℚ) (st0 : σ) (hasProgress : Bool) :
    List Effect × Except (List Char) OutputFile :=
  if lamejsLoaded = false then ([], Except.error encoderMissingMsg)
  else
    let int16Samples := quantize samples
    let loopRes := encodeLoop E int16Samples hasProgress st0 0 int16Samples.length [] []
    let flushRes := E.flush loopRes.1
    let mp3buf := flushRes.2
    let mp3Data2 := if mp3buf.length > 0 then loopRes.2.1 ++ [mp3buf] else loopRes.2.1
    let newFileName := replaceExtension name ++ ".mp3".toList
    ([Effect.readFile, Effect.decodeAudio, Effect.render] ++ loopRes.2.2
       ++ [Effect.flush mp3buf],
     Except.ok ⟨newFileName, "audio/mp3".toList, mp3Data2.flatten⟩)

/-- The windows passed to `encodeBuffer`, in call order, read off a trace. -/
def encodeBlockWindows (tr : List Effect) : List (List Int) :=
  tr.filterMap fun e =>
    match e with
    | Effect.encodeBlock w _ => some w
    | _ => none

/-- Every chunk the encoder returned (block calls and flush), in call order,
empty chunks included. -/
def returnedChunks (tr : List Effect) : List Chunk :=
  tr.filterMap fun e =>
    match e with
    | Effect.encodeBlock _ r => some r
    | Effect.flush r => some r
    | _ => none

/-- The values passed to the progress callback, in call order. -/
def progressValues (tr : List Effect) : List ℚ :=
  tr.filterMap fun e =>
    match e with
    | Effect.progress v => some v
    | _ => none

/-- The chunks returned by `flush` calls, in call order. -/
def flushCalls (tr : List Effect) : List Chunk :=
  tr.filterMap fun e =>
    match e with
    | Effect.flush r => some r
    | _ => none

/-- Reference form of the block loop, indexed by the number `j` of full
blocks still to process: processing starts at sample offset `o` in state
`st`, and `n` is the total sample count used as the progress denominator.
Returns the final state, the non-empty chunks produced, and the events
emitted. `encodeLoop` is proved equal to it below. -/
def loopSpec {σ : Type} (E : Mp3Encoder σ) (q : List Int) (n : Nat)
    (hp : Bool) : σ → Nat → Nat → σ × List Chunk × List Effect
  | st, _, 0 => (st, [], [])
  | st, o, j + 1 =>
    let w := (q.drop o).take sampleBlockSize
    let res := E.encodeBuffer st w
    let rest := loopSpec E q n hp res.1 (o + sampleBlockSize) j
    (rest.1,
     (if res.2.length > 0 then [res.2] else []) ++ rest.2.1,
     (Effect.encodeBlock w res.2 ::
        (if hp && ((o + sampleBlockSize) % (sampleBlockSize * 100) == 0) then
          [Effect.progress (((o + sampleBlockSize : Nat) : ℚ) / (n : ℚ))]
         else [])) ++ rest.2.2)

/-- The whole-pipeline instance of `loopSpec`: quantized samples, offset 0,
`n / sampleBlockSize` full blocks. `extractAudioFromVideo` with a loaded
encoder is proved to produce exactly this loop's state, chunks and events. -/
def pipelineSpec {σ : Type} (E : Mp3Encoder σ) (samples : List ℚ) (st0 : σ)
    (hp : Bool) : σ × List Chunk × List Effect :=
  loopSpec E (quantize samples) (quantize samples).length hp st0 0
    ((quantize samples).length / sampleBlockSize)

end AudioConverter

namespace AudioConverter

theorem encodeLoop_eq_loopSpec {σ : Type} (E : Mp3Encoder σ) (q : List Int)
    (hp : Bool) : ∀ (r : Nat) (st : σ) (o : Nat) (md : List Chunk) (tr : List Effect),
    encodeLoop E q hp st o r md tr =
      ((loopSpec E q q.length hp st o (r / sampleBlockSize)).1,
       md ++ (loopSpec E q q.length hp st o (r / sampleBlockSize)).2.1,
       tr ++ (loopSpec E q q.length hp st o (r / sampleBlockSize)).2.2) := by
  intro r
  induction r using Nat.strong_induction_on with
  | _ r ih =>
    intro st o md tr
    rw [encodeLoop]
    by_cases h : sampleBlockSize ≤ r
    · simp only [h, dif_pos]
      have hdiv : r / sampleBlockSize = (r - sampleBlockSize) / sampleBlockSize + 1 :=
        Nat.div_eq_sub_div (by simp [sampleBlockSize]) h
      have hlt : r - sampleBlockSize < r := by
        have : 0 < sampleBlockSize := by simp [sampleBlockSize]
        omega
      rw [ih (r - sampleBlockSize) hlt, hdiv]
      simp only [loopSpec, Prod.mk.injEq]
      refine ⟨trivial, ?_, ?_⟩
      · by_cases hb : (E.encodeBuffer st ((q.drop o).take sampleBlockSize)).2.length > 0 <;>
          simp [hb]
      · by_cases hb : (hp && ((o + sampleBlockSize) % (sampleBlockSize * 100) == 0)) = true <;>
          simp [hb]
    · have : r / sampleBlockSize = 0 := Nat.div_eq_of_lt (by omega)
      simp [h, this, loopSpec]

theorem clampSample_mem (s : ℚ) : -1 ≤ clampSample s ∧ clampSample s ≤ 1 := by
  unfold clampSample
  constructor
  · exact le_max_left _ _
  · exact max_le (by norm_num) (min_le_left _ _)

theorem toInt16_eq_self {z : ℤ} (h1 : -32768 ≤ z) (h2 : z ≤ 32767) : toInt16 z = z := by
  unfold toInt16
  omega

theorem trunc_bounds_of_clamped (s : ℚ) :
    (clampSample s < 0 → -32768 ≤ truncToZero (clampSample s * 32768) ∧
      truncToZero (clampSample s * 32768) ≤ 32767) ∧
    (¬ clampSample s < 0 → -32768 ≤ truncToZero (clampSample s * 32767) ∧
      truncToZero (clampSample s * 32767) ≤ 32767) := by
  obtain ⟨hlo, hhi⟩ := clampSample_mem s
  set c := clampSample s with hc
  constructor
  · intro hneg
    have hx : c * 32768 < 0 := by nlinarith
    have hxlo : (-32768 : ℚ) ≤ c * 32768 := by nlinarith
    unfold truncToZero
    rw [if_pos hx]
    constructor
    · have : (-32768 : ℚ) ≤ (⌈c * 32768⌉ : ℚ) := le_trans hxlo (Int.le_ceil _)
      exact_mod_cast this
    · have : ⌈c * 32768⌉ ≤ (0 : ℤ) := Int.ceil_le.mpr (by exact_mod_cast le_of_lt hx)
      omega
  · intro hpos
    push_neg at hpos
    have hx : ¬ c * 32767 < 0 := by nlinarith
    have hxhi : c * 32767 ≤ 32767 := by nlinarith
    unfold truncToZero
    rw [if_neg hx]
    constructor
    · have : (0 : ℤ) ≤ ⌊c * 32767⌋ := Int.floor_nonneg.mpr (by nlinarith)
      omega
    · have : (⌊c * 32767⌋ : ℚ) ≤ 32767 := le_trans (Int.floor_le _) hxhi
      exact_mod_cast this

theorem quantizeSample_eq_trunc (s : ℚ) :
    quantizeSample s =
      (if clampSample s < 0 then truncToZero (clampSample s * 32768)
       else truncToZero (clampSample s * 32767)) := by
  obtain ⟨hn, hp⟩ := trunc_bounds_of_clamped s
  unfold quantizeSample
  by_cases h : clampSample s < 0
  · obtain ⟨h1, h2⟩ := hn h
    simp only [h, if_pos]
    exact toInt16_eq_self h1 h2
  · obtain ⟨h1, h2⟩ := hp h
    simp only [h, if_neg, if_false]
    exact toInt16_eq_self h1 h2

theorem quantizeSample_range (s : ℚ) :
    -32768 ≤ quantizeSample s ∧ quantizeSample s ≤ 32767 := by
  rw [quantizeSample_eq_trunc]
  obtain ⟨hn, hp⟩ := trunc_bounds_of_clamped s
  by_cases h : clampSample s < 0
  · simpa [h] using hn h
  · simpa [h] using hp h

theorem loopSpec_windows {σ : Type} (E : Mp3Encoder σ) (q : List Int) (n : Nat)
    (hp : Bool) : ∀ (j : Nat) (st : σ) (o : Nat),
    encodeBlockWindows (loopSpec E q n hp st o j).2.2 =
      (List.range j).map (fun k => (q.drop (o + k * sampleBlockSize)).take sampleBlockSize) := by
  intro j
  induction j with
  | zero => intro st o; simp [loopSpec, encodeBlockWindows]
  | succ j ih =>
    intro st o
    rw [List.range_succ_eq_map]
    simp only [loopSpec, encodeBlockWindows, List.filterMap_append, List.filterMap_cons,
      List.map_cons, List.map_map]
    have hprog : ∀ l : List Effect,
        (l = [] ∨ ∃ v, l = [Effect.progress v]) → l.filterMap (fun e =>
          match e with
          | Effect.encodeBlock w _ => some w
          | _ => none) = [] := by
      rintro l (rfl | ⟨v, rfl⟩) <;> simp
    rw [hprog _ (by
      by_cases hb : (hp && ((o + sampleBlockSize) % (sampleBlockSize * 100) == 0)) = true
      · exact Or.inr ⟨_, by rw [if_pos hb]⟩
      · exact Or.inl (by rw [if_neg hb]))]
    rw [show (o + 0 * sampleBlockSize) = o by omega]
    have := ih (E.encodeBuffer st ((q.drop o).take sampleBlockSize)).1 (o + sampleBlockSize)
    simp only [encodeBlockWindows] at this
    rw [this]
    simp only [List.nil_append, List.cons_append, List.nil_append]
    congr 1
    apply List.map_congr_left
    intro k _
    simp only [Function.comp_apply]
    congr 2
    simp only [Nat.succ_mul, Nat.succ_eq_add_one]
    omega

theorem returnedChunks_append (l1 l2 : List Effect) :
    returnedChunks (l1 ++ l2) = returnedChunks l1 ++ returnedChunks l2 := by
  simp [returnedChunks]

theorem progressValues_append (l1 l2 : List Effect) :
    progressValues (l1 ++ l2) = progressValues l1 ++ progressValues l2 := by
  simp [progressValues]

theorem flushCalls_append (l1 l2 : List Effect) :
    flushCalls (l1 ++ l2) = flushCalls l1 ++ flushCalls l2 := by
  simp [flushCalls]

theorem encodeBlockWindows_append (l1 l2 : List Effect) :
    encodeBlockWindows (l1 ++ l2) = encodeBlockWindows l1 ++ encodeBlockWindows l2 := by
  simp [encodeBlockWindows]

theorem loopSpec_chunks {σ : Type} (E : Mp3Encoder σ) (q : List Int) (n : Nat)
    (hp : Bool) : ∀ (j : Nat) (st : σ) (o : Nat),
    (loopSpec E q n hp st o j).2.1 =
      (returnedChunks (loopSpec E q n hp st o j).2.2).filter
        (fun c => decide (0 < c.length)) := by
  intro j
  induction j with
  | zero => intro st o; simp [loopSpec, returnedChunks]
  | succ j ih =>
    intro st o
    by_cases hb : (hp && ((o + sampleBlockSize) % (sampleBlockSize * 100) == 0)) = true <;>
      by_cases hc : 0 < (E.encodeBuffer st ((q.drop o).take sampleBlockSize)).2.length <;>
        simp [loopSpec, hb, hc, ih, returnedChunks_append, returnedChunks, List.filter_cons]

theorem loopSpec_flushCalls {σ : Type} (E : Mp3Encoder σ) (q : List Int) (n : Nat)
    (hp : Bool) : ∀ (j : Nat) (st : σ) (o : Nat),
    flushCalls (loopSpec E q n hp st o j).2.2 = [] := by
  intro j
  induction j with
  | zero => intro st o; simp [loopSpec, flushCalls]
  | succ j ih =>
    intro st o
    have lhs : flushCalls (loopSpec E q n hp st o (j + 1)).2.2 =
        flushCalls (loopSpec E q n hp
          (E.encodeBuffer st ((q.drop o).take sampleBlockSize)).1 (o + sampleBlockSize) j).2.2 := by
      by_cases hb : (hp && ((o + sampleBlockSize) % (sampleBlockSize * 100) == 0)) = true <;>
        simp [loopSpec, hb, flushCalls_append, flushCalls]
    rw [lhs, ih]

theorem filterMap_congr_mem {α β : Type} {l : List α} {f g : α → Option β}
    (h : ∀ a ∈ l, f a = g a) : l.filterMap f = l.filterMap g := by
  induction l with
  | nil => rfl
  | cons a l ih =>
    rw [List.filterMap_cons, List.filterMap_cons, h a (List.mem_cons_self a l),
      ih (fun b hb => h b (List.mem_cons_of_mem a hb))]

theorem filterMap_range_succ_shift {β : Type} (f : Nat → Option β) (j : Nat) :
    (List.range (j + 1)).filterMap f =
      (f 0).toList ++ (List.range j).filterMap (fun k => f (k + 1)) := by
  rw [List.range_succ_eq_map, List.filterMap_cons, List.filterMap_map]
  have : (f ∘ Nat.succ) = fun k => f (k + 1) := by
    funext k
    simp [Function.comp, Nat.succ_eq_add_one]
  rw [this]
  cases h : f 0 <;> simp [h]

theorem loopSpec_progress {σ : Type} (E : Mp3Encoder σ) (q : List Int) (n : Nat)
    (hp : Bool) : ∀ (j : Nat) (st : σ) (o : Nat),
    progressValues (loopSpec E q n hp st o j).2.2 =
      (List.range j).filterMap (fun k =>
        if hp && ((o + (k + 1) * sampleBlockSize) % (sampleBlockSize * 100) == 0) then
          some (((o + (k + 1) * sampleBlockSize : Nat) : ℚ) / (n : ℚ))
        else none) := by
  intro j
  induction j with
  | zero => intro st o; simp [loopSpec, progressValues]
  | succ j ih =>
    intro st o
    rw [filterMap_range_succ_shift]
    have lhs : progressValues (loopSpec E q n hp st o (j + 1)).2.2 =
        (if hp && ((o + sampleBlockSize) % (sampleBlockSize * 100) == 0) then
          [((o + sampleBlockSize : Nat) : ℚ) / (n : ℚ)] else []) ++
        progressValues (loopSpec E q n hp
          (E.encodeBuffer st ((q.drop o).take sampleBlockSize)).1 (o + sampleBlockSize) j).2.2 := by
      by_cases hb : (hp && ((o + sampleBlockSize) % (sampleBlockSize * 100) == 0)) = true <;>
        simp [loopSpec, hb, progressValues_append, progressValues]
    rw [lhs, ih]
    congr 1
    · have h0 : o + (0 + 1) * sampleBlockSize = o + sampleBlockSize := by omega
      by_cases hb : (hp && ((o + sampleBlockSize) % (sampleBlockSize * 100) == 0)) = true <;>
        simp [h0, hb]
    · apply filterMap_congr_mem
      intro k _
      have harg : o + (k + 1 + 1) * sampleBlockSize =
          o + sampleBlockSize + (k + 1) * sampleBlockSize := by
        simp only [Nat.add_mul, Nat.one_mul]
        omega
      rw [harg]

theorem extractAudio_eq {σ : Type} (E : Mp3Encoder σ) (name : List Char)
    (samples : List ℚ) (st0 : σ) (hp : Bool) :
    extractAudioFromVideo E true name samples st0 hp =
      ([Effect.readFile, Effect.decodeAudio, Effect.render] ++
         (pipelineSpec E samples st0 hp).2.2 ++
         [Effect.flush (E.flush (pipelineSpec E samples st0 hp).1).2],
       Except.ok
         { name := replaceExtension name ++ ".mp3".toList,
           type := "audio/mp3".toList,
           content :=
             (if 0 < (E.flush (pipelineSpec E samples st0 hp).1).2.length then
                (pipelineSpec E samples st0 hp).2.1 ++
                  [(E.flush (pipelineSpec E samples st0 hp).1).2]
              else (pipelineSpec E samples st0 hp).2.1).flatten }) := by
  simp [extractAudioFromVideo, pipelineSpec, encodeLoop_eq_loopSpec]

theorem window_length {q : List Int} {k : Nat} (hk : k < q.length / sampleBlockSize) :
    ((q.drop (k * sampleBlockSize)).take sampleBlockSize).length = sampleBlockSize := by
  have h1 : (k + 1) * sampleBlockSize ≤ q.length :=
    (Nat.le_div_iff_mul_le (by simp [sampleBlockSize])).mp (by omega)
  simp only [List.length_take, List.length_drop]
  simp only [Nat.add_mul, Nat.one_mul] at h1
  omega

theorem takeWhile_append_all {α : Type} (p : α → Bool) (l1 l2 : List α)
    (h : ∀ c ∈ l1, p c = true) :
    (l1 ++ l2).takeWhile p = l1 ++ l2.takeWhile p := by
  induction l1 with
  | nil => simp
  | cons a l ih =>
    have ha : p a = true := h a (List.mem_cons_self a l)
    simp only [List.cons_append, List.takeWhile_cons, ha, if_true]
    rw [ih (fun c hc => h c (List.mem_cons_of_mem a hc))]

theorem dropWhile_append_all {α : Type} (p : α → Bool) (l1 l2 : List α)
    (h : ∀ c ∈ l1, p c = true) :
    (l1 ++ l2).dropWhile p = l2.dropWhile p := by
  induction l1 with
  | nil => simp
  | cons a l ih =>
    have ha : p a = true := h a (List.mem_cons_self a l)
    simp only [List.cons_append, List.dropWhile_cons, ha, if_true]
    exact ih (fun c hc => h c (List.mem_cons_of_mem a hc))

theorem replaceExtension_strip (pre ext : List Char) (hne : ext ≠ [])
    (hext : ∀ c ∈ ext, isExtChar c = true) :
    replaceExtension (pre ++ '.' :: ext) = pre := by
  have hx : ∀ c ∈ ext.reverse, isExtChar c = true := fun c hc =>
    hext c (List.mem_reverse.mp hc)
  have h1 : (pre ++ '.' :: ext).reverse = ext.reverse ++ '.' :: pre.reverse := by
    simp
  have h2 : (pre ++ '.' :: ext).reverse.dropWhile isExtChar = '.' :: pre.reverse := by
    rw [h1, dropWhile_append_all _ _ _ hx, List.dropWhile_cons]
    simp [isExtChar]
  have h3 : (pre ++ '.' :: ext).reverse.takeWhile isExtChar = ext.reverse := by
    rw [h1, takeWhile_append_all _ _ _ hx, List.takeWhile_cons]
    simp [isExtChar]
  unfold replaceExtension
  rw [h2, h3]
  simp only [List.reverse_eq_nil_iff]
  rw [if_neg hne]
  simp

theorem replaceExtension_id (name : List Char)
    (h : ∀ pre ext : List Char, name = pre ++ '.' :: ext → ext ≠ [] →
      (∀ c ∈ ext, isExtChar c = true) → False) :
    replaceExtension name = name := by
  unfold replaceExtension
  split
  · rename_i pre heq
    by_cases ht : name.reverse.takeWhile isExtChar = []
    · rw [if_pos ht]
    · exfalso
      refine h pre.reverse (name.reverse.takeWhile isExtChar).reverse ?_
        (by simpa using ht) ?_
      · have hsplit : name.reverse = name.reverse.takeWhile isExtChar ++ '.' :: pre := by
          rw [← heq]
          exact (List.takeWhile_append_dropWhile _ _).symm
        have := congrArg List.reverse hsplit
        simpa using this
      · intro c hc
        exact List.mem_takeWhile_imp (List.mem_reverse.mp hc)
  · rfl

theorem quantize_length (samples : List ℚ) : (quantize samples).length = samples.length := by
  simp [quantize]

theorem encodeLoop_windows {σ : Type} (E : Mp3Encoder σ) (st0 : σ) (q : List Int)
    (hp : Bool) :
    encodeBlockWindows (encodeLoop E q hp st0 0 q.length [] []).2.2 =
      (List.range (q.length / sampleBlockSize)).map
        (fun k => (q.drop (k * sampleBlockSize)).take sampleBlockSize) := by
  rw [encodeLoop_eq_loopSpec]
  simp only [List.nil_append]
  rw [loopSpec_windows]
  apply List.map_congr_left
  intro k _
  rw [Nat.zero_add]

theorem encodeLoop_progress {σ : Type} (E : Mp3Encoder σ) (st0 : σ) (q : List Int)
    (hp : Bool) :
    progressValues (encodeLoop E q hp st0 0 q.length [] []).2.2 =
      (List.range (q.length / sampleBlockSize)).filterMap (fun k =>
        if hp && (((k + 1) * sampleBlockSize) % (sampleBlockSize * 100) == 0) then
          some ((((k + 1) * sampleBlockSize : Nat) : ℚ) / (q.length : ℚ))
        else none) := by
  rw [encodeLoop_eq_loopSpec]
  simp only [List.nil_append]
  rw [loopSpec_progress]
  apply filterMap_congr_mem
  intro k _
  rw [Nat.zero_add]

theorem extract_progress {σ : Type} (E : Mp3Encoder σ) (st0 : σ) (samples : List ℚ)
    (name : List Char) (hp : Bool) :
    progressValues (extractAudioFromVideo E true name samples st0 hp).1 =
      (List.range (samples.length / sampleBlockSize)).filterMap (fun k =>
        if hp && (((k + 1) * sampleBlockSize) % (sampleBlockSize * 100) == 0) then
          some ((((k + 1) * sampleBlockSize : Nat) : ℚ) / (samples.length : ℚ))
        else none) := by
  rw [extractAudio_eq]
  simp only [progressValues_append, pipelineSpec]
  rw [loopSpec_progress]
  have h1 : progressValues [Effect.readFile, Effect.decodeAudio, Effect.render] = [] := by
    simp [progressValues]
  have h2 : ∀ c, progressValues [Effect.flush c] = [] := by
    intro c; simp [progressValues]
  rw [h1, h2, quantize_length]
  simp only [List.nil_append, List.append_nil]
  apply filterMap_congr_mem
  intro k _
  rw [Nat.zero_add]

/-- Claim C1: quantization maps each float sample `s` to
`truncate(clamp(s, -1, 1) * 32768)` when the clamped value is negative and
`truncate(clamp(s, -1, 1) * 32767)` otherwise; `s = -1 ↦ -32768`,
`s = 1 ↦ 32767`, `s = 1.5 ↦ 32767`, `s = -1.5 ↦ -32768`; every output lies
in `[-32768, 32767]`; and the output sequence has the same length and
ordering as the input. -/
theorem C1_quantization :
    (∀ s : ℚ, quantizeSample s =
       (if clampSample s < 0 then truncToZero (clampSample s * 32768)
        else truncToZero (clampSample s * 32767))) ∧
    (∀ s : ℚ, -32768 ≤ quantizeSample s ∧ quantizeSample s ≤ 32767) ∧
    quantizeSample (-1) = -32768 ∧ quantizeSample 1 = 32767 ∧
    quantizeSample (3 / 2) = 32767 ∧ quantizeSample (-(3 / 2)) = -32768 ∧
    (∀ samples : List ℚ, (quantize samples).length = samples.length) ∧
    (∀ (samples : List ℚ) (i : Nat),
       (quantize samples)[i]? = (samples[i]?).map quantizeSample) := by
  refine ⟨quantizeSample_eq_trunc, quantizeSample_range, ?_, ?_, ?_, ?_,
    quantize_length, ?_⟩
  · norm_num [quantizeSample, clampSample, truncToZero, toInt16, Int.ceil_neg]
  · norm_num [quantizeSample, clampSample, truncToZero, toInt16, Int.ceil_neg]
  · norm_num [quantizeSample, clampSample, truncToZero, toInt16, Int.ceil_neg]
  · norm_num [quantizeSample, clampSample, truncToZero, toInt16, Int.ceil_neg]
  · intro samples i
    simp [quantize, List.getElem?_map]

/-- Claim C2: the block loop calls `encodeBuffer` exactly
`⌊n / 1152⌋` times, on consecutive non-overlapping windows of exactly 1152
samples each, in ascending order starting at offset 0; the trailing
remainder is never passed; and an input of exactly 2304 float samples
produces exactly 2 encode calls plus 1 flush call. -/
theorem C2_block_framing :
    (∀ (σ : Type) (E : Mp3Encoder σ) (st0 : σ) (q : List Int) (hp : Bool),
       encodeBlockWindows (encodeLoop E q hp st0 0 q.length [] []).2.2 =
         (List.range (q.length / sampleBlockSize)).map
           (fun k => (q.drop (k * sampleBlockSize)).take sampleBlockSize)) ∧
    (∀ (σ : Type) (E : Mp3Encoder σ) (st0 : σ) (q : List Int) (hp : Bool),
       (encodeBlockWindows (encodeLoop E q hp st0 0 q.length [] []).2.2).length =
         q.length / sampleBlockSize) ∧
    (∀ (σ : Type) (E : Mp3Encoder σ) (st0 : σ) (q : List Int) (hp : Bool),
       ∀ w ∈ encodeBlockWindows (encodeLoop E q hp st0 0 q.length [] []).2.2,
         w.length = sampleBlockSize) ∧
    (∀ (σ : Type) (E : Mp3Encoder σ) (st0 : σ) (samples : List ℚ)
       (name : List Char) (hp : Bool), samples.length = 2304 →
       (encodeBlockWindows (extractAudioFromVideo E true name samples st0 hp).1).length = 2 ∧
       (flushCalls (extractAudioFromVideo E true name samples st0 hp).1).length = 1) := by
  refine ⟨fun σ E st0 q hp => encodeLoop_windows E st0 q hp, ?_, ?_, ?_⟩
  · intro σ E st0 q hp
    rw [encodeLoop_windows]
    simp
  · intro σ E st0 q hp w hw
    rw [encodeLoop_windows] at hw
    obtain ⟨k, hk, rfl⟩ := List.mem_map.mp hw
    exact window_length (List.mem_range.mp hk)
  · intro σ E st0 samples name hp hlen
    have hq : (quantize samples).length = 2304 := by rw [quantize_length, hlen]
    have hj : (quantize samples).length / sampleBlockSize = 2 := by
      rw [hq]; norm_num [sampleBlockSize]
    rw [extractAudio_eq]
    constructor
    · simp only [encodeBlockWindows_append, pipelineSpec]
      rw [loopSpec_windows, hj]
      simp [encodeBlockWindows]
    · simp only [flushCalls_append, pipelineSpec]
      rw [loopSpec_flushCalls]
      simp [flushCalls]

/-- Claim C3: the output payload is exactly the concatenation, in call
order, of the non-empty chunks the encoder returned — the per-block chunks
in block order, then the flush chunk last; zero-length chunks are
discarded and no chunk is split, dropped or reordered. -/
theorem C3_chunk_collection :
    ∀ (σ : Type) (E : Mp3Encoder σ) (st0 : σ) (samples : List ℚ)
      (name : List Char) (hp : Bool),
      ∃ f : OutputFile,
        (extractAudioFromVideo E true name samples st0 hp).2 = Except.ok f ∧
        f.content =
          ((returnedChunks (extractAudioFromVideo E true name samples st0 hp).1).filter
             (fun c => decide (0 < c.length))).flatten ∧
        returnedChunks (extractAudioFromVideo E true name samples st0 hp).1 =
          returnedChunks (pipelineSpec E samples st0 hp).2.2 ++
            [(E.flush (pipelineSpec E samples st0 hp).1).2] := by
  intro σ E st0 samples name hp
  rw [extractAudio_eq]
  refine ⟨_, rfl, ?_, ?_⟩
  · simp only [returnedChunks_append, pipelineSpec]
    rw [loopSpec_chunks]
    have h1 : returnedChunks [Effect.readFile, Effect.decodeAudio, Effect.render] = [] := by
      simp [returnedChunks]
    have h2 : ∀ c, returnedChunks [Effect.flush c] = [c] := by
      intro c; simp [returnedChunks]
    rw [h1, h2]
    by_cases hfb : 0 < (E.flush (loopSpec E (quantize samples) (quantize samples).length hp
        st0 0 ((quantize samples).length / sampleBlockSize)).1).2.length <;>
      simp [List.filter_append, List.filter_cons, hfb]
  · simp only [returnedChunks_append, pipelineSpec]
    have h1 : returnedChunks [Effect.readFile, Effect.decodeAudio, Effect.render] = [] := by
      simp [returnedChunks]
    have h2 : ∀ c, returnedChunks [Effect.flush c] = [c] := by
      intro c; simp [returnedChunks]
    rw [h1, h2]
    simp

/-- Claim C4: `flush` is invoked exactly once per invocation, after all
full-block encode calls (it is the final action of the trace), including
when the input length is an exact multiple of the block size; for a
500-sample input `flush` is still invoked while `encodeBuffer` is never
invoked. -/
theorem C4_flush_semantics :
    (∀ (σ : Type) (E : Mp3Encoder σ) (st0 : σ) (samples : List ℚ)
       (name : List Char) (hp : Bool),
       (flushCalls (extractAudioFromVideo E true name samples st0 hp).1).length = 1) ∧
    (∀ (σ : Type) (E : Mp3Encoder σ) (st0 : σ) (samples : List ℚ)
       (name : List Char) (hp : Bool),
       ∃ (tr0 : List Effect) (c : Chunk),
         (extractAudioFromVideo E true name samples st0 hp).1 = tr0 ++ [Effect.flush c] ∧
         flushCalls tr0 = []) ∧
    (∀ (σ : Type) (E : Mp3Encoder σ) (st0 : σ) (samples : List ℚ)
       (name : List Char) (hp : Bool), samples.length = 500 →
       encodeBlockWindows (extractAudioFromVideo E true name samples st0 hp).1 = [] ∧
       flushCalls (extractAudioFromVideo E true name samples st0 hp).1 = [(E.flush st0).2]) := by
  refine ⟨?_, ?_, ?_⟩
  · intro σ E st0 samples name hp
    rw [extractAudio_eq]
    simp only [flushCalls_append, pipelineSpec]
    rw [loopSpec_flushCalls]
    simp [flushCalls]
  · intro σ E st0 samples name hp
    rw [extractAudio_eq]
    refine ⟨[Effect.readFile, Effect.decodeAudio, Effect.render] ++
      (pipelineSpec E samples st0 hp).2.2, (E.flush (pipelineSpec E samples st0 hp).1).2,
      rfl, ?_⟩
    simp only [flushCalls_append, pipelineSpec]
    rw [loopSpec_flushCalls]
    simp [flushCalls]
  · intro σ E st0 samples name hp hlen
    have hq : (quantize samples).length = 500 := by rw [quantize_length, hlen]
    have hj : (quantize samples).length / sampleBlockSize = 0 := by
      rw [hq]; norm_num [sampleBlockSize]
    rw [extractAudio_eq]
    constructor
    · simp only [encodeBlockWindows_append, pipelineSpec, hj, loopSpec]
      simp [encodeBlockWindows]
    · simp only [flushCalls_append, pipelineSpec, hj, loopSpec]
      simp [flushCalls]

/-- Claim C5: the progress sink fires after the window ending at sample
offset `(k+1) * 1152` exactly when a callback was supplied and that offset
is an exact multiple of `1152 * 100`, with value `offset / totalSamples`;
it never fires otherwise — in particular never for inputs of fewer than
100 full blocks, and never when no callback was supplied. -/
theorem C5_progress_cadence :
    (∀ (σ : Type) (E : Mp3Encoder σ) (st0 : σ) (q : List Int) (hp : Bool),
       progressValues (encodeLoop E q hp st0 0 q.length [] []).2.2 =
         (List.range (q.length / sampleBlockSize)).filterMap (fun k =>
           if hp && (((k + 1) * sampleBlockSize) % (sampleBlockSize * 100) == 0) then
             some ((((k + 1) * sampleBlockSize : Nat) : ℚ) / (q.length : ℚ))
           else none)) ∧
    (∀ (σ : Type) (E : Mp3Encoder σ) (st0 : σ) (samples : List ℚ)
       (name : List Char) (hp : Bool),
       progressValues (extractAudioFromVideo E true name samples st0 hp).1 =
         (List.range (samples.length / sampleBlockSize)).filterMap (fun k =>
           if hp && (((k + 1) * sampleBlockSize) % (sampleBlockSize * 100) == 0) then
             some ((((k + 1) * sampleBlockSize : Nat) : ℚ) / (samples.length : ℚ))
           else none)) ∧
    (∀ (σ : Type) (E : Mp3Encoder σ) (st0 : σ) (q : List Int) (hp : Bool),
       q.length / sampleBlockSize < 100 →
       progressValues (encodeLoop E q hp st0 0 q.length [] []).2.2 = []) ∧
    (∀ (σ : Type) (E : Mp3Encoder σ) (st0 : σ) (samples : List ℚ) (name : List Char),
       progressValues (extractAudioFromVideo E true name samples st0 false).1 = []) := by
  refine ⟨fun σ E st0 q hp => encodeLoop_progress E st0 q hp,
    fun σ E st0 samples name hp => extract_progress E st0 samples name hp, ?_, ?_⟩
  · intro σ E st0 q hp hsmall
    rw [encodeLoop_progress]
    rw [List.filterMap_eq_nil_iff]
    intro k hk
    have hk2 : k < q.length / sampleBlockSize := List.mem_range.mp hk
    have hmod : (((k + 1) * sampleBlockSize) % (sampleBlockSize * 100) == 0) = false := by
      rw [beq_eq_false_iff_ne]
      simp only [sampleBlockSize] at hsmall hk2 ⊢
      have hlt : (k + 1) * 1152 < 1152 * 100 := by nlinarith [hk2, hsmall]
      have hpos : 0 < (k + 1) * 1152 := by positivity
      omega
    simp [hmod]
  · intro σ E st0 samples name
    rw [extract_progress]
    simp

/-- Claim C6: within a single invocation the values passed to the progress
sink are non-decreasing, and every one lies in `[0, 1]`. -/
theorem C6_progress_monotone_range :
    ∀ (σ : Type) (E : Mp3Encoder σ) (st0 : σ) (samples : List ℚ)
      (name : List Char) (hp : Bool),
      List.Pairwise (fun a b => a ≤ b)
        (progressValues (extractAudioFromVideo E true name samples st0 hp).1) ∧
      ∀ v ∈ progressValues (extractAudioFromVideo E true name samples st0 hp).1,
        0 ≤ v ∧ v ≤ 1 := by
  intro σ E st0 samples name hp
  rw [extract_progress]
  constructor
  · rw [List.pairwise_filterMap]
    apply List.Pairwise.imp ?_ (List.pairwise_lt_range _)
    intro a b hab va hva vb hvb
    have ha : va = ((a : ℚ) + 1) * (sampleBlockSize : ℚ) / (samples.length : ℚ) := by
      by_cases hc : (hp && (((a + 1) * sampleBlockSize) % (sampleBlockSize * 100) == 0)) = true <;>
        simp [hc] at hva
      exact hva.symm
    have hb : vb = ((b : ℚ) + 1) * (sampleBlockSize : ℚ) / (samples.length : ℚ) := by
      by_cases hc : (hp && (((b + 1) * sampleBlockSize) % (sampleBlockSize * 100) == 0)) = true <;>
        simp [hc] at hvb
      exact hvb.symm
    subst ha hb
    rcases Nat.eq_zero_or_pos samples.length with hn | hn
    · simp [hn]
    · have hnq : (0 : ℚ) < (samples.length : ℚ) := by exact_mod_cast hn
      rw [div_le_div_iff_of_pos_right hnq]
      have hab2 : ((a : ℚ) + 1) ≤ ((b : ℚ) + 1) := by
        have : (a : ℚ) ≤ (b : ℚ) := by exact_mod_cast le_of_lt hab
        linarith
      have hs : (0 : ℚ) ≤ (sampleBlockSize : ℚ) := by positivity
      exact mul_le_mul_of_nonneg_right hab2 hs
  · intro v hv
    obtain ⟨k, hk, hfk⟩ := List.mem_filterMap.mp hv
    have hk2 : k < samples.length / sampleBlockSize := List.mem_range.mp hk
    have hveq : v = ((k : ℚ) + 1) * (sampleBlockSize : ℚ) / (samples.length : ℚ) := by
      by_cases hc : (hp && (((k + 1) * sampleBlockSize) % (sampleBlockSize * 100) == 0)) = true <;>
        simp [hc] at hfk
      exact hfk.symm
    subst hveq
    have hle : (k + 1) * sampleBlockSize ≤ samples.length :=
      (Nat.le_div_iff_mul_le (by simp [sampleBlockSize])).mp (by omega)
    have hn : 0 < samples.length := by
      have hpos : 0 < (k + 1) * sampleBlockSize := by
        simp only [sampleBlockSize]
        positivity
      omega
    have hnq : (0 : ℚ) < (samples.length : ℚ) := by exact_mod_cast hn
    constructor
    · positivity
    · rw [div_le_one hnq]
      have : (((k + 1) * sampleBlockSize : Nat) : ℚ) ≤ (samples.length : ℚ) := by
        exact_mod_cast hle
      push_cast at this
      linarith

/-- Claim C7: the output file's name is the input name with only the final
extension (a last `.` followed by non-`.`/non-`/` characters) replaced by
`.mp3` — `clip.mp4 ↦ clip.mp3`, `clip.tar.mp4 ↦ clip.tar.mp3` — and its
declared media type is `audio/mp3` on every successful invocation. -/
theorem C7_output_naming :
    (∀ (σ : Type) (E : Mp3Encoder σ) (st0 : σ) (samples : List ℚ)
       (name : List Char) (hp : Bool),
       ∃ f : OutputFile,
         (extractAudioFromVideo E true name samples st0 hp).2 = Except.ok f ∧
         f.name = replaceExtension name ++ ".mp3".toList ∧
         f.type = "audio/mp3".toList) ∧
    (∀ pre ext : List Char, ext ≠ [] → (∀ c ∈ ext, isExtChar c = true) →
       replaceExtension (pre ++ '.' :: ext) = pre) ∧
    (∀ (σ : Type) (E : Mp3Encoder σ) (st0 : σ) (samples : List ℚ) (hp : Bool),
       ∃ f : OutputFile,
         (extractAudioFromVideo E true "clip.mp4".toList samples st0 hp).2 = Except.ok f ∧
         f.name = "clip.mp3".toList) ∧
    (∀ (σ : Type) (E : Mp3Encoder σ) (st0 : σ) (samples : List ℚ) (hp : Bool),
       ∃ f : OutputFile,
         (extractAudioFromVideo E true "clip.tar.mp4".toList samples st0 hp).2 = Except.ok f ∧
         f.name = "clip.tar.mp3".toList) := by
  refine ⟨?_, ?_, ?_, ?_⟩
  · intro σ E st0 samples name hp
    rw [extractAudio_eq]
    exact ⟨_, rfl, rfl, rfl⟩
  · intro pre ext hne hext
    exact replaceExtension_strip pre ext hne hext
  · intro σ E st0 samples hp
    rw [extractAudio_eq]
    refine ⟨_, rfl, ?_⟩
    show replaceExtension "clip.mp4".toList ++ ".mp3".toList = "clip.mp3".toList
    decide
  · intro σ E st0 samples hp
    rw [extractAudio_eq]
    refine ⟨_, rfl, ?_⟩
    show replaceExtension "clip.tar.mp4".toList ++ ".mp3".toList = "clip.tar.mp3".toList
    decide

/-- Claim C8: when the lamejs encoder library is not loaded, the pipeline
fails with the configuration error before anything happens — the trace is
empty, so no file read, decode, render, quantization or encoder call
occurs; when the encoder is loaded the invocation always succeeds, so that
error is never raised. -/
theorem C8_fail_fast :
    (∀ (σ : Type) (E : Mp3Encoder σ) (st0 : σ) (samples : List ℚ)
       (name : List Char) (hp : Bool),
       extractAudioFromVideo E false name samples st0 hp =
         ([], Except.error encoderMissingMsg)) ∧
    (∀ (σ : Type) (E : Mp3Encoder σ) (st0 : σ) (samples : List ℚ)
       (name : List Char) (hp : Bool),
       ∃ f : OutputFile,
         (extractAudioFromVideo E true name samples st0 hp).2 = Except.ok f) := by
  constructor
  · intro σ E st0 samples name hp
    rfl
  · intro σ E st0 samples name hp
    rw [extractAudio_eq]
    exact ⟨_, rfl⟩

/-- Claim C9: for an empty sample sequence the encoder's block call never
happens, the progress sink never fires, `flush` still runs exactly once,
and the pipeline succeeds with a well-formed file whose content is exactly
the flush chunk (possibly empty). -/
theorem C9_empty_input :
    ∀ (σ : Type) (E : Mp3Encoder σ) (st0 : σ) (name : List Char) (hp : Bool),
      extractAudioFromVideo E true name ([] : List ℚ) st0 hp =
        ([Effect.readFile, Effect.decodeAudio, Effect.render,
           Effect.flush (E.flush st0).2],
         Except.ok
           { name := replaceExtension name ++ ".mp3".toList,
             type := "audio/mp3".toList,
             content := (E.flush st0).2 }) ∧
      encodeBlockWindows (extractAudioFromVideo E true name ([] : List ℚ) st0 hp).1 = [] ∧
      progressValues (extractAudioFromVideo E true name ([] : List ℚ) st0 hp).1 = [] ∧
      (flushCalls (extractAudioFromVideo E true name ([] : List ℚ) st0 hp).1).length = 1 := by
  intro σ E st0 name hp
  have hmain : extractAudioFromVideo E true name ([] : List ℚ) st0 hp =
      ([Effect.readFile, Effect.decodeAudio, Effect.render,
         Effect.flush (E.flush st0).2],
       Except.ok
         { name := replaceExtension name ++ ".mp3".toList,
           type := "audio/mp3".toList,
           content := (E.flush st0).2 }) := by
    rw [extractAudio_eq]
    have hq : quantize ([] : List ℚ) = [] := rfl
    simp only [pipelineSpec, hq, List.length_nil, Nat.zero_div, loopSpec]
    by_cases hfb : 0 < (E.flush st0).2.length
    · simp [hfb]
    · have : (E.flush st0).2 = [] := by
        rw [← List.length_eq_zero]
        omega
      simp [hfb, this]
  refine ⟨hmain, ?_, ?_, ?_⟩
  · rw [hmain]; simp [encodeBlockWindows]
  · rw [hmain]; simp [progressValues]
  · rw [hmain]; simp [flushCalls]

/-- Claim C10: naming edge cases of `replace(/\.[^/.]+$/, "")` — when no
suffix of the name matches the pattern nothing is stripped and `.mp3` is
appended to the whole name (`clip ↦ clip.mp3`, `archive. ↦ archive..mp3`),
and when the whole name is a leading dot plus extension characters the
entire name is stripped (`.gitignore ↦ .mp3`). -/
theorem C10_naming_edge_cases :
    (∀ name : List Char,
       (∀ pre ext : List Char, name = pre ++ '.' :: ext → ext ≠ [] →
          (∀ c ∈ ext, isExtChar c = true) → False) →
       replaceExtension name = name) ∧
    (∀ (σ : Type) (E : Mp3Encoder σ) (st0 : σ) (samples : List ℚ) (hp : Bool),
       ∃ f : OutputFile,
         (extractAudioFromVideo E true "clip".toList samples st0 hp).2 = Except.ok f ∧
         f.name = "clip.mp3".toList) ∧
    (∀ (σ : Type) (E : Mp3Encoder σ) (st0 : σ) (samples : List ℚ) (hp : Bool),
       ∃ f : OutputFile,
         (extractAudioFromVideo E true "archive.".toList samples st0 hp).2 = Except.ok f ∧
         f.name = "archive..mp3".toList) ∧
    (∀ (σ : Type) (E : Mp3Encoder σ) (st0 : σ) (samples : List ℚ) (hp : Bool),
       ∃ f : OutputFile,
         (extractAudioFromVideo E true ".gitignore".toList samples st0 hp).2 = Except.ok f ∧
         f.name = ".mp3".toList) := by
  refine ⟨replaceExtension_id, ?_, ?_, ?_⟩
  · intro σ E st0 samples hp
    rw [extractAudio_eq]
    refine ⟨_, rfl, ?_⟩
    show replaceExtension "clip".toList ++ ".mp3".toList = "clip.mp3".toList
    decide
  · intro σ E st0 samples hp
    rw [extractAudio_eq]
    refine ⟨_, rfl, ?_⟩
    show replaceExtension "archive.".toList ++ ".mp3".toList = "archive..mp3".toList
    decide
  · intro σ E st0 samples hp
    rw [extractAudio_eq]
    refine ⟨_, rfl, ?_⟩
    show replaceExtension ".gitignore".toList ++ ".mp3".toList = ".mp3".toList
    decide

end AudioConverter
